import Mathlib

/-!
Verification of the LlamaSidekick core against its specification.

This file gives a shallow embedding, in Lean, of the security- and
protocol-relevant parts of the repository:

* the path guard `safeio.ResolveWithinRoot` together with the pieces of
  Go's `path/filepath` library it calls (`Clean`, `Join`, `Abs`, `Dir`,
  `IsAbs`, all specialised to the unix separator, which is the platform
  the tests run on);
* the mutation writer `safeio.WriteFileWithBackup` over an explicit
  filesystem state;
* the streaming read loop of `ollama.Client.Generate` /
  `GenerateWithModel`, the non-streaming `Client.GenerateJSON`, and
  `Client.ListModels`, with the HTTP response abstracted to its status,
  status text and (decoded view of the) body;
* the structured-output parsing in `AgentMode.ProcessInput` and the
  raw file writes it performs;
* the conversation assembler `BuildConversationContext`.

Strings are handled through their underlying character lists, so every
definition is executable and every concrete instance can be settled by
evaluation.
-/

namespace LlamaSidekick

/-! ## Path strings as segment lists

Go's `path/filepath` functions (on unix) treat a path as the list of
segments between `/` characters.  `splitSegs` and `joinSegs` convert
between the raw character list and that segment view. -/

abbrev Seg := List Char

def splitSegs : List Char → List Seg
  | [] => [[]]
  | c :: rest =>
    match splitSegs rest with
    | [] => [[]]
    | s :: ss => if c = '/' then [] :: s :: ss else (c :: s) :: ss

def joinSegs : List Seg → List Char
  | [] => []
  | [s] => s
  | s :: rest => s ++ '/' :: joinSegs rest

/-! ## Go filepath.Clean

`cleanStep` processes one segment exactly as the element loop of Go's
`filepath.Clean` does: empty and `.` segments are dropped, `..` pops the
previous output segment unless the output is empty (in a rooted path it
is then dropped, otherwise the `..` is kept), and every other segment is
appended.  The output list is kept in reverse order. -/

def cleanStep (rooted : Bool) (out : List Seg) (seg : Seg) : List Seg :=
  if seg = ([] : Seg) ∨ seg = ['.'] then out
  else if seg = ['.', '.'] then
    match out with
    | [] => if rooted then [] else [seg]
    | prev :: rest => if prev = ['.', '.'] then seg :: prev :: rest else rest
  else seg :: out

/-- A segment that `Clean` passes through unchanged: not empty, not `.`. -/
def plainSeg (s : Seg) : Prop := s ≠ ([] : Seg) ∧ s ≠ ['.']

instance (s : Seg) : Decidable (plainSeg s) := by
  unfold plainSeg; infer_instance

/-- A segment of a cleaned rooted path: plain, not `..`, slash-free. -/
def goodSeg (s : Seg) : Prop :=
  s ≠ ([] : Seg) ∧ s ≠ ['.'] ∧ s ≠ ['.', '.'] ∧ '/' ∉ s

/-- Embedding of `filepath.Clean` (unix): split into segments, process
them with `cleanStep`, reassemble, restoring the leading `/` of a rooted
path and turning an empty result into `.`. -/
def cleanChars (l : List Char) : List Char :=
  let rooted := l.head? = some '/'
  let out := (List.foldl (cleanStep (decide rooted)) [] (splitSegs l)).reverse
  let body := joinSegs out
  if rooted then '/' :: body
  else if body = [] then ['.'] else body

/-- Embedding of `filepath.IsAbs` on unix: the path starts with `/`. -/
def goIsAbs (p : String) : Bool := decide (p.data.head? = some '/')

/-- Embedding of `filepath.Clean` on unix. -/
def goClean (p : String) : String := String.mk (cleanChars p.data)

/-- Embedding of `filepath.Join(a, b)` for two non-empty elements on
unix: `Clean(a + "/" + b)`. -/
def goJoin2 (a b : String) : String :=
  String.mk (cleanChars (a.data ++ '/' :: b.data))

/-- Embedding of `filepath.Abs` on unix, with the process working
directory (always absolute, supplied by `os.Getwd`) passed explicitly:
an absolute path is cleaned, a relative one is joined onto `cwd`. -/
def goAbs (cwd p : String) : String :=
  if goIsAbs p then goClean p else goJoin2 cwd p

/-- Embedding of `strings.HasPrefix s pre`. -/
def strStartsWith (s pre : String) : Bool := decide (pre.data <+: s.data)

/-- Embedding of `strings.HasSuffix s suf`. -/
def strEndsWith (s suf : String) : Bool := decide (suf.data <:+ s.data)

/-! ## The Path Guard: safeio.ResolveWithinRoot -/

/-- Embedding of `safeio.ResolveWithinRoot` (unix separator).  The
process working directory `cwd` is the extra input consumed by the two
`filepath.Abs` calls; Go guarantees it is absolute and the `Abs` calls
cannot fail.  Error values carry the Go error messages (format verbs
filled in). -/
def resolveWithinRoot (cwd root userPath : String) : Except String (String × String) :=
  if root = "" then .error "project root is empty"
  else if userPath = "" then .error "path is empty"
  else if goIsAbs userPath then .error ("absolute paths are not allowed: " ++ userPath)
  else if goClean userPath = "." then .error ("invalid path: " ++ userPath)
  else if goClean userPath = ".." ∨ strStartsWith (goClean userPath) "../" = true then
    .error ("path escapes project root: " ++ userPath)
  else if goAbs cwd (goJoin2 (goAbs cwd root) (goClean userPath)) ≠ goAbs cwd root
      ∧ ¬ strStartsWith (goAbs cwd (goJoin2 (goAbs cwd root) (goClean userPath)))
          (if strEndsWith (goAbs cwd root) "/" = true then goAbs cwd root
           else goAbs cwd root ++ "/") = true then
    .error "resolved path is outside project root"
  else .ok (goAbs cwd (goJoin2 (goAbs cwd root) (goClean userPath)), goClean userPath)

/-! ## Last-character helper, used for the trailing-separator check -/

def lastOf : List Char → Option Char
  | [] => none
  | [c] => some c
  | _ :: c :: rest => lastOf (c :: rest)

/-! ## Filesystem model

The mutation writer and the agent-mode file creation act on the real
filesystem through `os.Stat`, `os.ReadFile`, `os.WriteFile` and
`os.MkdirAll`.  These are modelled over an explicit state: an
association list from paths to entries, newest entry first.  OS failures
that depend on state outside the model (permissions, IO errors, missing
parent directories for a write whose sibling already exists) are not
modelled; the structurally determined failures (an existing file where a
directory is needed and vice versa) are. -/

inductive FsEntry where
  | file (content : String)
  | dir
deriving DecidableEq

abbrev Fs := List (String × FsEntry)

def lookupFs : Fs → String → Option FsEntry
  | [], _ => none
  | (k, v) :: rest, p => if p = k then some v else lookupFs rest p

def setFs (fs : Fs) (k : String) (v : FsEntry) : Fs := (k, v) :: fs

/-- Embedding of `filepath.Dir` on unix: everything up to and including
the final `/` (empty if there is none), then passed through `Clean`. -/
def dirChars (l : List Char) : List Char :=
  cleanChars ((l.reverse.dropWhile (fun c => c != '/')).reverse)

def goDir (p : String) : String := String.mk (dirChars p.data)

/-- Embedding of `os.MkdirAll`: an existing directory is accepted, an
existing regular file is an error, otherwise the parent chain is created
recursively and the directory inserted.  The recursion of the real call
is bounded here by explicit fuel; callers pass enough fuel for their
path, and running out of fuel is modelled as an error (so a successful
run never depends on the fuel bound). -/
def mkdirAll : Nat → Fs → String → Except String Fs
  | 0, _, d => .error ("mkdir " ++ d ++ ": out of fuel")
  | fuel + 1, fs, d =>
    if d = "/" ∨ d = "." then .ok fs
    else
      match lookupFs fs d with
      | some (.file _) => .error ("mkdir " ++ d ++ ": not a directory")
      | some .dir => .ok fs
      | none =>
        match mkdirAll fuel fs (goDir d) with
        | .error e => .error e
        | .ok fs2 => .ok (setFs fs2 d .dir)

/-- Embedding of `os.WriteFile`: fails on an existing directory,
otherwise replaces or creates the entry with the new content. -/
def fsWriteFile (fs : Fs) (p content : String) : Except String Fs :=
  match lookupFs fs p with
  | some .dir => .error ("open " ++ p ++ ": is a directory")
  | _ => .ok (setFs fs p (.file content))

/-- Result of `WriteFileWithBackup`: the named return values
`(backupPath, err)` of the Go function together with the filesystem
state after the call (including effects already applied when the
call fails midway). -/
structure WriteResult where
  backupPath : String
  fs : Fs
  err : Option String
deriving DecidableEq

/-- Fuel that always suffices for `mkdirAll` starting from `d`. -/
def mkdirFuel (d : String) : Nat := d.data.length + 2

/-- The backup write of `safeio.WriteFileWithBackup`: the existing
content is written to `absPath + ".backup"`. -/
def backupWrite (fs : Fs) (absPath existing : String) :
    Except String (String × Fs) :=
  match fsWriteFile fs (absPath ++ ".backup") existing with
  | .error e => .error ("failed to write backup: " ++ e)
  | .ok fs1 => .ok (absPath ++ ".backup", fs1)

/-- The backup block of `safeio.WriteFileWithBackup`: if `os.Stat` finds
a regular file, its content is written to `absPath + ".backup"`; in this
model reading the existing entry always yields its stored content. -/
def writeBackupStep (fs : Fs) (absPath : String) :
    Option FsEntry → Except String (String × Fs)
  | some (.file existing) => backupWrite fs absPath existing
  | _ => .ok ("", fs)

/-- The final write of `safeio.WriteFileWithBackup`. -/
def writeFileFinish (fs2 : Fs) (backupPath absPath content : String) : WriteResult :=
  match fsWriteFile fs2 absPath content with
  | .error e => ⟨backupPath, fs2, some ("failed to write file: " ++ e)⟩
  | .ok fs3 => ⟨backupPath, fs3, none⟩

/-- The tail of `safeio.WriteFileWithBackup` after the backup block:
`os.MkdirAll(filepath.Dir(absPath))` followed by the main write. -/
def writeFileCore (fs : Fs) (backupPath absPath content : String) : WriteResult :=
  match mkdirAll (mkdirFuel (goDir absPath)) fs (goDir absPath) with
  | .error e => ⟨backupPath, fs, some ("failed to create directories: " ++ e)⟩
  | .ok fs2 => writeFileFinish fs2 backupPath absPath content

/-- Embedding of `safeio.WriteFileWithBackup`. -/
def writeFileWithBackup (fs : Fs) (absPath content : String) : WriteResult :=
  if absPath = "" then ⟨"", fs, some "absPath is empty"⟩
  else
    match writeBackupStep fs absPath (lookupFs fs absPath) with
    | .error e => ⟨"", fs, some e⟩
    | .ok (backupPath, fs1) => writeFileCore fs1 backupPath absPath content

/-! ## Agent-mode file creation (AgentMode.ProcessInput, file branch)

`AgentMode.ProcessInput` iterates over the parsed `(filename, content)`
records and, for each one, runs `filepath.Dir` on the raw model-supplied
filename, calls `os.MkdirAll` when that directory is not `.`, and then
calls `os.WriteFile` on the raw filename; an error merely prints and
skips to the next record.  No call to the path guard appears anywhere on
this path. -/

structure GeneratedFile where
  filename : String
  content : String
deriving DecidableEq

def agentCreateFile (fs : Fs) (f : GeneratedFile) : Fs :=
  match (if goDir f.filename ≠ "." then
      mkdirAll (mkdirFuel (goDir f.filename)) fs (goDir f.filename)
    else .ok fs) with
  | .error _ => fs
  | .ok fs1 =>
    match fsWriteFile fs1 f.filename f.content with
    | .error _ => fs1
    | .ok fs2 => fs2

def agentCreateFiles (fs : Fs) (files : List GeneratedFile) : Fs :=
  files.foldl agentCreateFile fs

/-! ## Transport client: the Ollama streaming protocol -/

structure GenerateResponse where
  model : String := ""
  created_at : String := ""
  response : String := ""
  done : Bool := false
deriving DecidableEq

/-- One scanned line of a streaming response body, in decoded view: an
empty line (skipped by the read loop), a line on which JSON decoding
fails, or a decoded frame. -/
inductive StreamLine where
  | blank
  | malformed (raw : String)
  | frame (resp : GenerateResponse)
deriving DecidableEq

/-- What a call observes of the HTTP response: status code, status text,
raw body (quoted in the non-200 error message) and, for a 200 response,
the body as scanned lines. -/
structure HttpResponse where
  status : Nat
  statusText : String
  rawBody : String
  lines : List StreamLine

/-- Outcome of a streaming call: the chunks passed to the callback, in
order, and the value the call returns. -/
structure StreamResult where
  calls : List String
  outcome : Except String Unit

/-- Embedding of the scanner loop shared by `Client.Generate` and
`Client.GenerateWithModel`: empty lines are skipped, a malformed line
aborts with a parse error, a frame with a non-empty `response` invokes
the callback (a callback error is returned as is), and a frame with
`done = true` ends the loop, after which the call returns `nil`.  The
callback is modelled as a function of the previously delivered chunks
and the current chunk, so the trace `calls` determines its behaviour. -/
def generateLoop (cb : List String → String → Except String Unit)
    (acc : List String) : List StreamLine → StreamResult
  | [] => ⟨acc, .ok ()⟩
  | .blank :: rest => generateLoop cb acc rest
  | .malformed _ :: _ => ⟨acc, .error "failed to parse response"⟩
  | .frame g :: rest =>
    if g.response ≠ "" then
      match cb acc g.response with
      | .error e => ⟨acc ++ [g.response], .error e⟩
      | .ok _ =>
        if g.done then ⟨acc ++ [g.response], .ok ()⟩
        else generateLoop cb (acc ++ [g.response]) rest
    else
      if g.done then ⟨acc, .ok ()⟩
      else generateLoop cb acc rest

/-- Embedding of `Client.Generate` / `Client.GenerateWithModel` from the
HTTP response on: a non-200 status aborts with an error quoting status
and body; otherwise the scanner loop runs. -/
def generate (cb : List String → String → Except String Unit)
    (r : HttpResponse) : StreamResult :=
  if r.status ≠ 200 then
    ⟨[], .error ("ollama API error: " ++ r.statusText ++ " - " ++ r.rawBody)⟩
  else generateLoop cb [] r.lines

/-- The non-empty fragments carried by a line list, in order. -/
def fragments : List StreamLine → List String
  | [] => []
  | .frame g :: rest =>
    if g.response = "" then fragments rest else g.response :: fragments rest
  | _ :: rest => fragments rest

/-- A line the loop passes through without stopping: blank, or a frame
that is not the final one. -/
def benignLine : StreamLine → Bool
  | .blank => true
  | .malformed _ => false
  | .frame g => !g.done

/-! ## Non-streaming transport operations -/

/-- The decoded view of a non-streaming response body: either the body
is not decodable into `GenerateResponse` (invalid JSON), or it decodes
to a `GenerateResponse`.  The raw text is carried for reference. -/
inductive DecodedBody where
  | malformed (raw : String)
  | decoded (raw : String) (g : GenerateResponse)

/-- What `Client.GenerateJSON` observes of the HTTP response. -/
structure JsonHttpResponse where
  status : Nat
  statusText : String
  body : DecodedBody

/-- Embedding of `Client.GenerateJSON` from the HTTP response on: the
status code is never inspected; the body is decoded and the `response`
field returned, a decode failure being the only error. -/
def generateJSON (r : JsonHttpResponse) : Except String String :=
  match r.body with
  | .malformed _ => .error "failed to decode response"
  | .decoded _ g => .ok g.response

structure OllamaModel where
  name : String
  modified_at : String
  size : Int
deriving DecidableEq

/-- The decoded view of a `/api/tags` response body. -/
inductive ModelsBody where
  | malformed (raw : String)
  | decoded (raw : String) (models : List OllamaModel)

/-- What `Client.ListModels` observes of the HTTP response. -/
structure TagsHttpResponse where
  status : Nat
  statusText : String
  body : ModelsBody

/-- Embedding of `Client.ListModels` from the HTTP response on: a
non-200 status is an error naming only the status text (the body is not
read); otherwise the body is decoded. -/
def listModels (r : TagsHttpResponse) : Except String (List OllamaModel) :=
  if r.status ≠ 200 then .error ("ollama returned status " ++ r.statusText)
  else
    match r.body with
    | .malformed _ => .error "failed to decode models response"
    | .decoded _ ms => .ok ms

/-! ## Structured-output parsing (AgentMode.ProcessInput) -/

/-- JSON values, for the application-level decoding performed by
`json.Unmarshal` on the structured payload. -/
inductive Json where
  | null
  | bool (b : Bool)
  | num (n : Int)
  | str (s : String)
  | arr (elems : List Json)
  | obj (fields : List (String × Json))

/-- The structured payload: the raw text together with its JSON parse,
or the raw text alone when it is not valid JSON. -/
inductive Payload where
  | invalid (raw : String)
  | value (raw : String) (j : Json)

def Payload.raw : Payload → String
  | .invalid r => r
  | .value r _ => r

/-- `encoding/json` object decoding into a `string` struct field with
the given tag: a missing field or JSON null leaves the zero value, a
JSON string is taken, any other type is an error.  Duplicate keys are
decoded sequentially, so the last one wins. -/
def getField (fields : List (String × Json)) (name : String) : Option Json :=
  (fields.reverse.find? (fun kv => kv.1 = name)).map (fun kv => kv.2)

def decodeStringField (fields : List (String × Json)) (name : String) :
    Except String String :=
  match getField fields name with
  | none => .ok ""
  | some .null => .ok ""
  | some (.str s) => .ok s
  | some _ => .error ("cannot unmarshal into field " ++ name ++ " of type string")

/-- `json.Unmarshal` of one JSON value into the anonymous struct with
string fields `Filename` and `Content` used by `AgentMode.ProcessInput`. -/
def decodeFileObj : Json → Except String GeneratedFile
  | .obj fields =>
    match decodeStringField fields "filename" with
    | .error e => .error e
    | .ok f =>
      match decodeStringField fields "content" with
      | .error e => .error e
      | .ok c => .ok ⟨f, c⟩
  | _ => .error "cannot unmarshal into struct"

/-- `json.Unmarshal` into a slice of those structs: the top level must
be an array and every element must decode. -/
def decodeFileArr : Json → Except String (List GeneratedFile)
  | .arr elems => elems.mapM decodeFileObj
  | _ => .error "cannot unmarshal into slice"

/-- The first unmarshal attempt of `AgentMode.ProcessInput`: the payload
as a JSON array of file objects. -/
def unmarshalFiles : Payload → Except String (List GeneratedFile)
  | .invalid _ => .error "invalid character"
  | .value _ j => decodeFileArr j

/-- The fallback unmarshal attempt: the payload as a single bare file
object. -/
def unmarshalSingle : Payload → Except String GeneratedFile
  | .invalid _ => .error "invalid character"
  | .value _ j => decodeFileObj j

/-- Embedding of the structured-output parsing in
`AgentMode.ProcessInput`: try the array shape, fall back to the single
object (wrapped in a one-element list), and if both fail return the
error of the array attempt together with the raw payload. -/
def parseGeneratedFiles (p : Payload) : Except String (List GeneratedFile) :=
  match unmarshalFiles p with
  | .ok files => .ok files
  | .error e1 =>
    match unmarshalSingle p with
    | .ok f => .ok [f]
    | .error _ =>
      .error ("error parsing JSON response: " ++ e1 ++ "\nResponse was: " ++ p.raw)

/-! ## Conversation assembler (BuildConversationContext) -/

structure Message where
  role : String
  content : String
deriving DecidableEq

/-- The loop body of `BuildConversationContext`: index `i` against
`total - 1` decides whether the stored text of a user turn is replaced
by the enhanced variant; roles other than `user` and `assistant`
contribute nothing. -/
def renderTurnGo (enhanced : String) (total i : Nat) (m : Message) : String :=
  if m.role = "user" then
    "User: " ++ (if i = total - 1 then enhanced else m.content) ++ "\n\n"
  else if m.role = "assistant" then
    "Assistant: " ++ m.content ++ "\n\n"
  else ""

def buildConversationContextAux (enhanced : String) (total : Nat) :
    Nat → List Message → String
  | _, [] => ""
  | i, m :: rest =>
    renderTurnGo enhanced total i m ++
      buildConversationContextAux enhanced total (i + 1) rest

/-- Embedding of `BuildConversationContext`: fold the history through
the loop body, starting at index 0 against the history length. -/
def buildConversationContext (history : List Message) (enhanced : String) : String :=
  buildConversationContextAux enhanced history.length 0 history

/-- The rendering described by the specification for one turn: prefix
`User: ` or `Assistant: `, with the enhancement substituted for the text
of the most recent turn when that turn is a user turn. -/
def specRenderTurn (isLast : Bool) (enhanced : String) (m : Message) : String :=
  if m.role = "user" then "User: " ++ (if isLast then enhanced else m.content)
  else "Assistant: " ++ m.content

/-- Joining with a blank line between consecutive entries, as the
specification words it. -/
def sepByBlank : List String → String
  | [] => ""
  | [s] => s
  | s :: rest => s ++ "\n\n" ++ sepByBlank rest

/-! ## Theorems -/

theorem splitSegs_ne_nil (l : List Char) : splitSegs l ≠ [] := by
  cases l with
  | nil => simp [splitSegs]
  | cons c rest =>
    simp only [splitSegs]
    cases h : splitSegs rest with
    | nil => simp
    | cons s ss =>
      by_cases hc : c = '/' <;> simp [hc]

theorem splitSegs_cons_slash (l : List Char) :
    splitSegs ('/' :: l) = [] :: splitSegs l := by
  simp only [splitSegs]
  cases h : splitSegs l with
  | nil => exact absurd h (splitSegs_ne_nil l)
  | cons s ss => simp

theorem splitSegs_cons_ne (c : Char) (l : List Char) (hc : c ≠ '/')
    {t : Seg} {ts : List Seg} (h : splitSegs l = t :: ts) :
    splitSegs (c :: l) = (c :: t) :: ts := by
  simp only [splitSegs, h, hc, if_false]

theorem splitSegs_append_slash (a b : List Char) :
    splitSegs (a ++ '/' :: b) = splitSegs a ++ splitSegs b := by
  induction a with
  | nil =>
    simp only [List.nil_append]
    rw [splitSegs_cons_slash]
    rfl
  | cons c a ih =>
    by_cases hc : c = '/'
    · subst hc
      rw [List.cons_append, splitSegs_cons_slash, splitSegs_cons_slash, ih]
      simp
    · cases h : splitSegs a with
      | nil => exact absurd h (splitSegs_ne_nil a)
      | cons s ss =>
        have hap : splitSegs (a ++ '/' :: b) = s :: (ss ++ splitSegs b) := by
          rw [ih, h]; rfl
        rw [List.cons_append, splitSegs_cons_ne c _ hc hap,
          splitSegs_cons_ne c _ hc h]
        rfl

theorem noSlash_of_mem_splitSegs {l : List Char} {s : Seg}
    (hs : s ∈ splitSegs l) : '/' ∉ s := by
  induction l generalizing s with
  | nil =>
    have : s = [] := by simpa [splitSegs] using hs
    simp [this]
  | cons c rest ih =>
    by_cases hc : c = '/'
    · subst hc
      rw [splitSegs_cons_slash] at hs
      rcases List.mem_cons.mp hs with hs | hs
      · simp [hs]
      · exact ih hs
    · cases h : splitSegs rest with
      | nil => exact absurd h (splitSegs_ne_nil rest)
      | cons t ts =>
        rw [splitSegs_cons_ne c _ hc h] at hs
        rcases List.mem_cons.mp hs with hs | hs
        · subst hs
          intro hmem
          rcases List.mem_cons.mp hmem with h1 | h1
          · exact hc h1.symm
          · exact ih (h ▸ List.mem_cons_self t ts) h1
        · exact ih (h ▸ List.mem_cons_of_mem t hs)

theorem splitSegs_noSlash {l : List Char} (h : '/' ∉ l) :
    splitSegs l = [l] := by
  induction l with
  | nil => simp [splitSegs]
  | cons c rest ih =>
    have hc : c ≠ '/' := fun hc => h (hc ▸ List.mem_cons_self c rest)
    have hrest : '/' ∉ rest := fun hm => h (List.mem_cons_of_mem c hm)
    rw [splitSegs_cons_ne c _ hc (ih hrest)]

theorem joinSegs_cons (s : Seg) (L : List Seg) (hL : L ≠ []) :
    joinSegs (s :: L) = s ++ '/' :: joinSegs L := by
  cases L with
  | nil => exact absurd rfl hL
  | cons t ts => rfl

theorem joinSegs_ne_nil {L : List Seg} (hL : L ≠ [])
    (hmem : ∀ s ∈ L, s ≠ ([] : Seg)) : joinSegs L ≠ [] := by
  cases L with
  | nil => exact absurd rfl hL
  | cons s ts =>
    cases ts with
    | nil =>
      simpa [joinSegs] using hmem s (List.mem_cons_self s [])
    | cons t ts =>
      rw [joinSegs_cons s _ (by simp)]
      intro h
      simp [List.append_eq_nil] at h

theorem splitSegs_joinSegs {L : List Seg} (hL : L ≠ [])
    (hns : ∀ s ∈ L, '/' ∉ s) : splitSegs (joinSegs L) = L := by
  induction L with
  | nil => exact absurd rfl hL
  | cons s ts ih =>
    cases ts with
    | nil =>
      simp only [joinSegs]
      exact splitSegs_noSlash (hns s (List.mem_cons_self s []))
    | cons t ts =>
      rw [joinSegs_cons s _ (by simp), splitSegs_append_slash,
        splitSegs_noSlash (hns s (List.mem_cons_self s _)),
        ih (by simp) (fun u hu => hns u (List.mem_cons_of_mem s hu))]
      rfl

theorem joinSegs_append {L M : List Seg} (hL : L ≠ []) (hM : M ≠ []) :
    joinSegs (L ++ M) = joinSegs L ++ '/' :: joinSegs M := by
  induction L with
  | nil => exact absurd rfl hL
  | cons s ts ih =>
    cases ts with
    | nil =>
      rw [List.singleton_append, joinSegs_cons s M hM]
      rfl
    | cons t ts =>
      rw [List.cons_append, joinSegs_cons s _ (by simp),
        joinSegs_cons s _ (by simp), ih (by simp)]
      simp

theorem cleanStep_no_dotdot (rooted : Bool) (out : List Seg) {seg : Seg}
    (hseg : seg ≠ ['.', '.']) :
    cleanStep rooted out seg =
      if plainSeg seg then seg :: out else out := by
  unfold cleanStep plainSeg
  by_cases h : seg = ([] : Seg) ∨ seg = ['.']
  · rw [if_pos h, if_neg (fun hc => h.elim (fun he => hc.1 he) fun he => hc.2 he)]
  · push_neg at h
    rw [if_neg (fun hc => hc.elim (fun he => h.1 he) fun he => h.2 he),
      if_neg hseg, if_pos h]

theorem cleanStep_dotdot_nil (rooted : Bool) :
    cleanStep rooted [] ['.', '.'] = if rooted then [] else [['.', '.']] := by
  unfold cleanStep
  rw [if_neg (by decide), if_pos rfl]

theorem cleanStep_dotdot_cons (rooted : Bool) (prev : Seg) (rest : List Seg) :
    cleanStep rooted (prev :: rest) ['.', '.'] =
      if prev = ['.', '.'] then ['.', '.'] :: prev :: rest else rest := by
  unfold cleanStep
  rw [if_neg (by decide), if_pos rfl]

/-- When no `..` segment is present, the loop of `Clean` simply keeps the
plain segments, in order (the accumulator is reversed). -/
theorem cleanFold_no_dotdot (rooted : Bool) (segs : List Seg)
    (hdd : ['.', '.'] ∉ segs) :
    ∀ acc, List.foldl (cleanStep rooted) acc segs =
      (segs.filter (fun s => decide (plainSeg s))).reverse ++ acc := by
  induction segs with
  | nil => intro acc; simp
  | cons s ts ih =>
    intro acc
    have hs : s ≠ ['.', '.'] := fun h => hdd (h ▸ List.mem_cons_self s ts)
    have hts : ['.', '.'] ∉ ts := fun h => hdd (List.mem_cons_of_mem s h)
    rw [List.foldl_cons, cleanStep_no_dotdot rooted acc hs]
    by_cases hp : plainSeg s
    · rw [if_pos hp, ih hts, List.filter_cons]
      simp [hp]
    · rw [if_neg hp, ih hts, List.filter_cons]
      simp [hp]

/-- Processing slash-free segments with a rooted accumulator of good
segments yields only good segments: with `rooted = true` a `..` can
never survive into the output. -/
theorem cleanFold_good (segs : List Seg) (hns : ∀ s ∈ segs, '/' ∉ s) :
    ∀ acc, (∀ s ∈ acc, goodSeg s) →
      ∀ s ∈ List.foldl (cleanStep true) acc segs, goodSeg s := by
  induction segs with
  | nil => intro acc hacc; simpa using hacc
  | cons t ts ih =>
    intro acc hacc
    have hts : ∀ s ∈ ts, '/' ∉ s := fun s hs => hns s (List.mem_cons_of_mem t hs)
    rw [List.foldl_cons]
    refine ih hts (cleanStep true acc t) ?_
    intro s hs
    by_cases h2 : t = ['.', '.']
    · subst h2
      cases hacc2 : acc with
      | nil =>
        rw [hacc2, cleanStep_dotdot_nil] at hs
        simp at hs
      | cons prev rest =>
        have hprev : goodSeg prev := hacc prev (hacc2 ▸ List.mem_cons_self prev rest)
        rw [hacc2, cleanStep_dotdot_cons, if_neg hprev.2.2.1] at hs
        exact hacc s (hacc2 ▸ List.mem_cons_of_mem prev hs)
    · rw [cleanStep_no_dotdot true acc h2] at hs
      by_cases hp : plainSeg t
      · rw [if_pos hp] at hs
        rcases List.mem_cons.mp hs with hs | hs
        · subst hs
          exact ⟨hp.1, hp.2, h2, hns s (List.mem_cons_self s ts)⟩
        · exact hacc s hs
      · rw [if_neg hp] at hs
        exact hacc s hs

theorem cleanChars_rooted_struct (l : List Char) (h : l.head? = some '/') :
    ∃ R : List Seg, cleanChars l = '/' :: joinSegs R ∧ ∀ s ∈ R, goodSeg s := by
  have hd : decide (l.head? = some '/') = true := decide_eq_true h
  refine ⟨(List.foldl (cleanStep true) [] (splitSegs l)).reverse, ?_, ?_⟩
  · simp only [cleanChars]
    rw [hd, if_pos h]
  · intro s hs
    exact cleanFold_good (splitSegs l)
      (fun t ht => noSlash_of_mem_splitSegs ht) []
      (by intro t ht; simp at ht) s (List.mem_reverse.mp hs)

theorem cleanChars_not_rooted (l : List Char) (h : ¬ l.head? = some '/')
    (hdd : ['.', '.'] ∉ splitSegs l) :
    cleanChars l =
      if (splitSegs l).filter (fun s => decide (plainSeg s)) = [] then ['.']
      else joinSegs ((splitSegs l).filter (fun s => decide (plainSeg s))) := by
  have hd : decide (l.head? = some '/') = false := decide_eq_false h
  simp only [cleanChars]
  rw [hd, if_neg h, cleanFold_no_dotdot false _ hdd, List.append_nil,
    List.reverse_reverse]
  by_cases hP : (splitSegs l).filter (fun s => decide (plainSeg s)) = []
  · rw [hP, if_pos rfl]
    simp [joinSegs]
  · rw [if_neg hP, if_neg]
    exact joinSegs_ne_nil hP
      (fun s hs => (of_decide_eq_true ((List.mem_filter.mp hs).2)).1)

/-! ## String wrappers

The Go code manipulates paths as strings; these wrappers expose the
character-list machinery at the `String` level.  `strStartsWith` and
`strEndsWith` embed `strings.HasPrefix` and `strings.HasSuffix`. -/

theorem strExt {s t : String} (h : s.data = t.data) : s = t := by
  cases s; cases t; exact congrArg String.mk h

theorem strDataAppend (s t : String) : (s ++ t).data = s.data ++ t.data := by
  cases s; cases t; rfl

theorem lastOf_cons (a : Char) (l : List Char) (hl : l ≠ []) :
    lastOf (a :: l) = lastOf l := by
  cases l with
  | nil => exact absurd rfl hl
  | cons c rest => rfl

theorem lastOf_append (l₁ l₂ : List Char) (h : l₂ ≠ []) :
    lastOf (l₁ ++ l₂) = lastOf l₂ := by
  induction l₁ with
  | nil => rfl
  | cons a l₁ ih =>
    rw [List.cons_append, lastOf_cons, ih]
    intro hc
    rcases List.append_eq_nil.mp hc with ⟨_, h2⟩
    exact h h2

theorem lastOf_concat (t : List Char) (c : Char) :
    lastOf (t ++ [c]) = some c := by
  rw [lastOf_append t [c] (by simp)]
  rfl

theorem mem_of_lastOf {l : List Char} {c : Char} (h : lastOf l = some c) :
    c ∈ l := by
  induction l with
  | nil => simp [lastOf] at h
  | cons a rest ih =>
    cases rest with
    | nil =>
      simp [lastOf] at h
      simp [h]
    | cons b bs =>
      rw [lastOf_cons a _ (by simp)] at h
      exact List.mem_cons_of_mem a (ih h)

theorem lastOf_joinSegs_ne_slash {R : List Seg} (hR : R ≠ [])
    (hgood : ∀ s ∈ R, goodSeg s) :
    lastOf (joinSegs R) ≠ some '/' := by
  induction R with
  | nil => exact absurd rfl hR
  | cons s ts ih =>
    cases ts with
    | nil =>
      intro h
      exact (hgood s (List.mem_cons_self s [])).2.2.2 (mem_of_lastOf h)
    | cons t ts2 =>
      have hts : (t :: ts2 : List Seg) ≠ [] := by simp
      have hgood2 : ∀ u ∈ t :: ts2, goodSeg u :=
        fun u hu => hgood u (List.mem_cons_of_mem s hu)
      have hjoin2 : joinSegs (t :: ts2) ≠ [] :=
        joinSegs_ne_nil hts (fun u hu => (hgood2 u hu).1)
      rw [joinSegs_cons s _ hts, lastOf_append _ _ (by simp),
        lastOf_cons '/' _ hjoin2]
      exact ih hts hgood2

/-- The character list of a cleaned rooted path `/` + segments never
ends in `/` when there is at least one segment. -/
theorem lastOf_rooted_ne_slash {R : List Seg} (hR : R ≠ [])
    (hgood : ∀ s ∈ R, goodSeg s) :
    lastOf ('/' :: joinSegs R) ≠ some '/' := by
  have hjoin : joinSegs R ≠ [] :=
    joinSegs_ne_nil hR (fun s hs => (hgood s hs).1)
  rw [lastOf_cons '/' _ hjoin]
  exact lastOf_joinSegs_ne_slash hR hgood

/-! ## Claim C3: rejection of escape attempts -/

/-- Claim C3: for every root (and working directory), `ResolveWithinRoot`
returns an error whenever the user path is `..`, whenever its normalized
(cleaned) form begins with `../`, or whenever it is absolute. -/
theorem resolve_rejects_escapes (cwd root userPath : String)
    (h : userPath = ".." ∨ strStartsWith (goClean userPath) "../" = true ∨
      goIsAbs userPath = true) :
    ∃ e, resolveWithinRoot cwd root userPath = .error e := by
  unfold resolveWithinRoot
  by_cases hroot : root = ""
  · rw [if_pos hroot]; exact ⟨_, rfl⟩
  rw [if_neg hroot]
  rcases h with h | h | h
  · subst h
    exact ⟨"path escapes project root: ..", by rfl⟩
  · have hup : userPath ≠ "" := by
      intro he
      rw [he] at h
      exact absurd h (by decide)
    rw [if_neg hup]
    by_cases habs : goIsAbs userPath = true
    · rw [if_pos habs]; exact ⟨_, rfl⟩
    rw [if_neg habs]
    have hdot : ¬ goClean userPath = "." := by
      intro he
      rw [he] at h
      exact absurd h (by decide)
    rw [if_neg hdot, if_pos (Or.inr h)]
    exact ⟨_, rfl⟩
  · have hup : userPath ≠ "" := by
      intro he
      rw [he] at h
      exact absurd h (by decide)
    rw [if_neg hup, if_pos h]
    exact ⟨_, rfl⟩

/-! ## Further Clean lemmas for the success case of the guard -/

theorem filter_plain_good (Q : List Seg) (hQ : ∀ s ∈ Q, goodSeg s) :
    Q.filter (fun s => decide (plainSeg s)) = Q :=
  List.filter_eq_self.mpr
    (fun a ha => decide_eq_true ⟨(hQ a ha).1, (hQ a ha).2.1⟩)

theorem cleanChars_rooted_no_dotdot (l : List Char) (h : l.head? = some '/')
    (hdd : ['.', '.'] ∉ splitSegs l) :
    cleanChars l =
      '/' :: joinSegs ((splitSegs l).filter (fun s => decide (plainSeg s))) := by
  have hd : decide (l.head? = some '/') = true := decide_eq_true h
  simp only [cleanChars]
  rw [hd, if_pos h, cleanFold_no_dotdot true _ hdd, List.append_nil,
    List.reverse_reverse]

theorem dotdot_not_mem_cons_append {R P : List Seg}
    (hR : ∀ s ∈ R, goodSeg s) (hP : ∀ s ∈ P, goodSeg s) :
    ['.', '.'] ∉ ([] : Seg) :: R ++ P := by
  intro h
  rcases List.mem_cons.mp h with h | h
  · simp at h
  · rcases List.mem_append.mp h with h | h
    · exact (hR _ h).2.2.1 rfl
    · exact (hP _ h).2.2.1 rfl

theorem cleanChars_slash_join (R P : List Seg)
    (hRgood : ∀ s ∈ R, goodSeg s) (hPgood : ∀ s ∈ P, goodSeg s)
    (hPne : P ≠ []) :
    cleanChars (('/' :: joinSegs R) ++ '/' :: joinSegs P) =
      '/' :: joinSegs (R ++ P) := by
  have hsegs : splitSegs (('/' :: joinSegs R) ++ '/' :: joinSegs P) =
      ([] :: splitSegs (joinSegs R)) ++ P := by
    rw [splitSegs_append_slash, splitSegs_cons_slash,
      splitSegs_joinSegs hPne (fun s hs => (hPgood s hs).2.2.2)]
  have hhead : (('/' :: joinSegs R) ++ '/' :: joinSegs P).head? = some '/' := by
    rw [List.cons_append]; rfl
  by_cases hRne : R = []
  · subst hRne
    have hsegs2 : splitSegs (('/' :: joinSegs ([] : List Seg)) ++ '/' :: joinSegs P) =
        [([] : Seg), ([] : Seg)] ++ P := by
      rw [hsegs]; rfl
    have hdd2 : ['.', '.'] ∉
        splitSegs (('/' :: joinSegs ([] : List Seg)) ++ '/' :: joinSegs P) := by
      rw [hsegs2]
      intro h
      rcases List.mem_append.mp h with h | h
      · simp at h
      · exact (hPgood _ h).2.2.1 rfl
    have hf : ([([] : Seg), ([] : Seg)]).filter (fun s => decide (plainSeg s)) = [] := by
      decide
    rw [cleanChars_rooted_no_dotdot _ hhead hdd2, hsegs2,
      List.filter_append, filter_plain_good P hPgood, hf]
  · have hsegs2 : splitSegs (('/' :: joinSegs R) ++ '/' :: joinSegs P) =
        ([] : Seg) :: R ++ P := by
      rw [hsegs, splitSegs_joinSegs hRne (fun s hs => (hRgood s hs).2.2.2)]
    have hdd2 : ['.', '.'] ∉
        splitSegs (('/' :: joinSegs R) ++ '/' :: joinSegs P) := by
      rw [hsegs2]
      exact dotdot_not_mem_cons_append hRgood hPgood
    have hf : (decide (plainSeg ([] : Seg))) = false := by decide
    rw [cleanChars_rooted_no_dotdot _ hhead hdd2, hsegs2,
      List.cons_append, List.filter_cons, List.filter_append,
      filter_plain_good R hRgood, filter_plain_good P hPgood, hf]
    simp

theorem cleanChars_rooted_fix (Q : List Seg) (hQ : ∀ s ∈ Q, goodSeg s) :
    cleanChars ('/' :: joinSegs Q) = '/' :: joinSegs Q := by
  by_cases hQne : Q = []
  · subst hQne; decide
  · have hsegs : splitSegs ('/' :: joinSegs Q) = ([] : Seg) :: Q := by
      rw [splitSegs_cons_slash,
        splitSegs_joinSegs hQne (fun s hs => (hQ s hs).2.2.2)]
    have hdd2 : ['.', '.'] ∉ splitSegs ('/' :: joinSegs Q) := by
      rw [hsegs]
      intro h
      rcases List.mem_cons.mp h with h | h
      · simp at h
      · exact (hQ _ h).2.2.1 rfl
    have hf : (decide (plainSeg ([] : Seg))) = false := by decide
    rw [cleanChars_rooted_no_dotdot ('/' :: joinSegs Q) (by rfl) hdd2, hsegs,
      List.filter_cons, hf]
    simp [filter_plain_good Q hQ]

/-- Claim C2 (amended): for every absolute working directory, non-empty
root and non-empty relative user path without `..` segments whose
cleaned form is not `.`, `ResolveWithinRoot` succeeds, returns the
cleaned relative path together with the join of the canonicalized root
and that cleaned path, and the returned absolute path has the
canonicalized root as a prefix. -/
theorem resolve_ok_of_safe_relative (cwd root userPath : String)
    (hcwd : goIsAbs cwd = true)
    (hroot : root ≠ "")
    (hup : userPath ≠ "")
    (habs : goIsAbs userPath = false)
    (hdd : ['.', '.'] ∉ splitSegs userPath.data)
    (hdot : goClean userPath ≠ ".") :
    resolveWithinRoot cwd root userPath =
      .ok (goJoin2 (goAbs cwd root) (goClean userPath), goClean userPath)
    ∧ strStartsWith (goJoin2 (goAbs cwd root) (goClean userPath))
        (goAbs cwd root) = true := by
  have hhead : ¬ userPath.data.head? = some '/' := of_decide_eq_false habs
  have hclean_eq := cleanChars_not_rooted userPath.data hhead hdd
  have hPne0 : (splitSegs userPath.data).filter (fun s => decide (plainSeg s)) ≠ [] := by
    intro hP
    apply hdot
    apply strExt
    show cleanChars userPath.data = ".".data
    rw [hclean_eq, if_pos hP]
  have hcleanP0 : (goClean userPath).data =
      joinSegs ((splitSegs userPath.data).filter (fun s => decide (plainSeg s))) := by
    show cleanChars userPath.data = _
    rw [hclean_eq, if_neg hPne0]
  have hPgood0 : ∀ s ∈ (splitSegs userPath.data).filter (fun s => decide (plainSeg s)),
      goodSeg s := by
    intro s hs
    have hm := List.mem_filter.mp hs
    have hpl := of_decide_eq_true hm.2
    refine ⟨hpl.1, hpl.2, ?_, noSlash_of_mem_splitSegs hm.1⟩
    intro he
    exact hdd (he ▸ hm.1)
  obtain ⟨P, hcleanP, hPne, hPgood⟩ :
      ∃ P : List Seg, (goClean userPath).data = joinSegs P ∧ P ≠ [] ∧
        ∀ s ∈ P, goodSeg s := ⟨_, hcleanP0, hPne0, hPgood0⟩
  have hsplitP : splitSegs (joinSegs P) = P :=
    splitSegs_joinSegs hPne (fun s hs => (hPgood s hs).2.2.2)
  have hne2 : ¬ goClean userPath = ".." := by
    intro he
    have hdata : joinSegs P = ['.', '.'] := by rw [← hcleanP, he]
    have hPeq : P = [['.', '.']] := by
      rw [← hsplitP, hdata]
      exact splitSegs_noSlash (by decide)
    have hg : goodSeg ['.', '.'] :=
      hPgood _ (by rw [hPeq]; exact List.mem_cons_self _ _)
    exact hg.2.2.1 rfl
  have hpre : ¬ strStartsWith (goClean userPath) "../" = true := by
    intro hb
    obtain ⟨t, ht⟩ := of_decide_eq_true hb
    have hdata : joinSegs P = ['.', '.'] ++ '/' :: t := by
      rw [← hcleanP, ← ht]; rfl
    have hPeq : P = [['.', '.']] ++ splitSegs t := by
      rw [← hsplitP, hdata, splitSegs_append_slash,
        splitSegs_noSlash (show ('/' : Char) ∉ ['.', '.'] by decide)]
    have hg : goodSeg ['.', '.'] :=
      hPgood _ (by rw [hPeq]; exact List.mem_append_left _ (List.mem_cons_self _ _))
    exact hg.2.2.1 rfl
  obtain ⟨R, hRdata, hRgood⟩ :
      ∃ R : List Seg, (goAbs cwd root).data = '/' :: joinSegs R ∧
        ∀ s ∈ R, goodSeg s := by
    unfold goAbs
    by_cases hra : goIsAbs root = true
    · rw [if_pos hra]
      obtain ⟨R, h1, h2⟩ := cleanChars_rooted_struct root.data (of_decide_eq_true hra)
      exact ⟨R, h1, h2⟩
    · rw [if_neg hra]
      have hch : cwd.data.head? = some '/' := of_decide_eq_true hcwd
      have hh : (cwd.data ++ '/' :: root.data).head? = some '/' := by
        cases hcd : cwd.data with
        | nil => rw [hcd] at hch; simp at hch
        | cons c cs =>
          rw [hcd] at hch
          simp only [List.head?_cons, Option.some.injEq] at hch
          simp [hch]
      obtain ⟨R, h1, h2⟩ := cleanChars_rooted_struct _ hh
      exact ⟨R, h1, h2⟩
  have hjoined : (goJoin2 (goAbs cwd root) (goClean userPath)).data =
      '/' :: joinSegs (R ++ P) := by
    show cleanChars ((goAbs cwd root).data ++ '/' :: (goClean userPath).data) = _
    rw [hRdata, hcleanP]
    exact cleanChars_slash_join R P hRgood hPgood hPne
  have hgoodRP : ∀ s ∈ R ++ P, goodSeg s := by
    intro s hs
    rcases List.mem_append.mp hs with h | h
    · exact hRgood s h
    · exact hPgood s h
  have hJabsb : goIsAbs (goJoin2 (goAbs cwd root) (goClean userPath)) = true := by
    unfold goIsAbs
    rw [hjoined]
    rfl
  have hfix : goAbs cwd (goJoin2 (goAbs cwd root) (goClean userPath)) =
      goJoin2 (goAbs cwd root) (goClean userPath) := by
    have hG : goAbs cwd (goJoin2 (goAbs cwd root) (goClean userPath)) =
        if goIsAbs (goJoin2 (goAbs cwd root) (goClean userPath)) then
          goClean (goJoin2 (goAbs cwd root) (goClean userPath))
        else goJoin2 cwd (goJoin2 (goAbs cwd root) (goClean userPath)) := rfl
    rw [hG, if_pos hJabsb]
    apply strExt
    show cleanChars (goJoin2 (goAbs cwd root) (goClean userPath)).data =
      (goJoin2 (goAbs cwd root) (goClean userPath)).data
    rw [hjoined]
    exact cleanChars_rooted_fix (R ++ P) hgoodRP
  have hprefix_sep : strStartsWith (goJoin2 (goAbs cwd root) (goClean userPath))
      (if strEndsWith (goAbs cwd root) "/" = true then goAbs cwd root
       else goAbs cwd root ++ "/") = true := by
    by_cases hRne : R = []
    · subst hRne
      have hroot1 : (goAbs cwd root).data = ['/'] := by rw [hRdata]; rfl
      have hsuf : strEndsWith (goAbs cwd root) "/" = true := by
        unfold strEndsWith
        rw [hroot1]
        exact decide_eq_true ⟨[], rfl⟩
      rw [if_pos hsuf]
      unfold strStartsWith
      rw [hjoined, hroot1]
      exact decide_eq_true ⟨joinSegs (([] : List Seg) ++ P), rfl⟩
    · have hsuf : strEndsWith (goAbs cwd root) "/" = false := by
        unfold strEndsWith
        apply decide_eq_false
        intro hsf
        obtain ⟨t, ht⟩ := hsf
        have hlast : lastOf ((goAbs cwd root).data) = some '/' := by
          rw [← ht]
          exact lastOf_concat t '/'
        rw [hRdata] at hlast
        exact lastOf_rooted_ne_slash hRne hRgood hlast
      have hsep : (goAbs cwd root ++ "/").data = ('/' :: joinSegs R) ++ ['/'] := by
        rw [strDataAppend, hRdata]
      rw [hsuf, if_neg Bool.false_ne_true]
      unfold strStartsWith
      apply decide_eq_true
      rw [hsep, hjoined]
      refine ⟨joinSegs P, ?_⟩
      rw [joinSegs_append hRne hPne]
      simp
  have hcond : ¬ (goAbs cwd (goJoin2 (goAbs cwd root) (goClean userPath)) ≠ goAbs cwd root
      ∧ ¬ strStartsWith (goAbs cwd (goJoin2 (goAbs cwd root) (goClean userPath)))
          (if strEndsWith (goAbs cwd root) "/" = true then goAbs cwd root
           else goAbs cwd root ++ "/") = true) := by
    intro hc
    apply hc.2
    rw [hfix]
    exact hprefix_sep
  constructor
  · unfold resolveWithinRoot
    rw [if_neg hroot, if_neg hup,
      if_neg (show ¬ goIsAbs userPath = true by rw [habs]; exact Bool.false_ne_true),
      if_neg hdot, if_neg (not_or.mpr ⟨hne2, hpre⟩), if_neg hcond, hfix]
  · unfold strStartsWith
    apply decide_eq_true
    rw [hjoined, hRdata]
    by_cases hRne : R = []
    · subst hRne
      exact ⟨joinSegs (([] : List Seg) ++ P), rfl⟩
    · refine ⟨'/' :: joinSegs P, ?_⟩
      rw [joinSegs_append hRne hPne]
      simp

theorem lookupFs_setFs (fs : Fs) (k p : String) (v : FsEntry) :
    lookupFs (setFs fs k v) p = if p = k then some v else lookupFs fs p := rfl

theorem fsWriteFile_ok {fs fs3 : Fs} {p c : String}
    (h : fsWriteFile fs p c = .ok fs3) : fs3 = setFs fs p (.file c) := by
  unfold fsWriteFile at h
  cases hl : lookupFs fs p with
  | none =>
    rw [hl] at h
    simp at h
    exact h.symm
  | some e =>
    cases e with
    | file c0 =>
      rw [hl] at h
      simp at h
      exact h.symm
    | dir =>
      rw [hl] at h
      simp at h

/-- A successful `mkdirAll` never disturbs an existing regular file:
it only inserts directory entries at paths that held no file (a file at
any path it touches is an error). -/
theorem mkdirAll_preserves_file {fuel : Nat} {fs fs2 : Fs} {d p c : String}
    (h : mkdirAll fuel fs d = .ok fs2)
    (hp : lookupFs fs p = some (.file c)) :
    lookupFs fs2 p = some (.file c) := by
  induction fuel generalizing fs fs2 d with
  | zero => simp [mkdirAll] at h
  | succ fuel ih =>
    unfold mkdirAll at h
    by_cases hd : d = "/" ∨ d = "."
    · rw [if_pos hd] at h
      simp at h
      rw [← h]
      exact hp
    · rw [if_neg hd] at h
      cases hl : lookupFs fs d with
      | none =>
        rw [hl] at h
        cases hm : mkdirAll fuel fs (goDir d) with
        | error e => rw [hm] at h; simp at h
        | ok fs3 =>
          rw [hm] at h
          simp at h
          have hpd : p ≠ d := by
            intro he
            rw [he, hl] at hp
            cases hp
          rw [← h, lookupFs_setFs, if_neg hpd]
          exact ih hm hp
      | some e =>
        cases e with
        | file c2 => rw [hl] at h; simp at h
        | dir =>
          rw [hl] at h
          simp at h
          rw [← h]
          exact hp

/-- Characterization of a successful `WriteFileWithBackup` call: the
backup block succeeded, the directory creation succeeded, and the final
state is the post-mkdir state with the file entry replaced. -/
theorem writeFileWithBackup_ok_char (fs : Fs) (p c : String)
    (h : (writeFileWithBackup fs p c).err = none) :
    ∃ bp bfs fs2, writeBackupStep fs p (lookupFs fs p) = .ok (bp, bfs) ∧
      mkdirAll (mkdirFuel (goDir p)) bfs (goDir p) = .ok fs2 ∧
      writeFileWithBackup fs p c = ⟨bp, setFs fs2 p (.file c), none⟩ := by
  unfold writeFileWithBackup at h ⊢
  by_cases hp : p = ""
  · rw [if_pos hp] at h
    simp at h
  rw [if_neg hp] at h ⊢
  cases hb : writeBackupStep fs p (lookupFs fs p) with
  | error e =>
    rw [hb] at h
    simp at h
  | ok pr =>
    obtain ⟨bp, bfs⟩ := pr
    rw [hb] at h
    have h2 : (writeFileCore bfs bp p c).err = none := h
    unfold writeFileCore at h2
    cases hm : mkdirAll (mkdirFuel (goDir p)) bfs (goDir p) with
    | error e =>
      rw [hm] at h2
      simp at h2
    | ok fs2 =>
      rw [hm] at h2
      have h3 : (writeFileFinish fs2 bp p c).err = none := h2
      unfold writeFileFinish at h3
      cases hw : fsWriteFile fs2 p c with
      | error e =>
        rw [hw] at h3
        simp at h3
      | ok fs3 =>
        refine ⟨bp, bfs, fs2, rfl, hm, ?_⟩
        show writeFileCore bfs bp p c = _
        have s1 : writeFileCore bfs bp p c = writeFileFinish fs2 bp p c := by
          unfold writeFileCore
          rw [hm]
        have s2 : writeFileFinish fs2 bp p c = ⟨bp, fs3, none⟩ := by
          unfold writeFileFinish
          rw [hw]
        rw [s1, s2, fsWriteFile_ok hw]

theorem append_backup_ne (p : String) : p ++ ".backup" ≠ p := by
  intro he
  have hlen := congrArg (fun s : String => s.data.length) he
  simp only [strDataAppend, List.length_append] at hlen
  have h7 : (".backup" : String).data.length = 7 := rfl
  rw [h7] at hlen
  omega

/-- Claim C8: writing `content1` to `p` and then `content2` to `p`
(both calls succeeding) leaves `p` holding `content2`, the sibling
`p + ".backup"` holding `content1`, and the second call reports that
backup path. -/
theorem write_backup_roundtrip (fs : Fs) (p c1 c2 : String)
    (h1 : (writeFileWithBackup fs p c1).err = none)
    (h2 : (writeFileWithBackup (writeFileWithBackup fs p c1).fs p c2).err = none) :
    lookupFs (writeFileWithBackup (writeFileWithBackup fs p c1).fs p c2).fs p
        = some (.file c2)
    ∧ lookupFs (writeFileWithBackup (writeFileWithBackup fs p c1).fs p c2).fs
        (p ++ ".backup") = some (.file c1)
    ∧ (writeFileWithBackup (writeFileWithBackup fs p c1).fs p c2).backupPath
        = p ++ ".backup" := by
  obtain ⟨bp1, bfs1, fsa, hb1, hm1, he1⟩ := writeFileWithBackup_ok_char fs p c1 h1
  have hlook1 : lookupFs (writeFileWithBackup fs p c1).fs p = some (.file c1) := by
    rw [he1, lookupFs_setFs, if_pos rfl]
  obtain ⟨bp2, bfs2, fsb, hb2, hm2, he2⟩ :=
    writeFileWithBackup_ok_char (writeFileWithBackup fs p c1).fs p c2 h2
  -- the second call stats the file written by the first, so its backup
  -- block writes content1 to the sibling backup path
  rw [hlook1] at hb2
  simp only [writeBackupStep] at hb2
  unfold backupWrite at hb2
  cases hw : fsWriteFile (writeFileWithBackup fs p c1).fs (p ++ ".backup") c1 with
  | error e =>
    rw [hw] at hb2
    simp at hb2
  | ok fsw =>
    rw [hw] at hb2
    simp at hb2
    obtain ⟨hbp2, hbfs2⟩ := hb2
    have hwfs : fsw = setFs (writeFileWithBackup fs p c1).fs (p ++ ".backup") (.file c1) :=
      fsWriteFile_ok hw
    have hbk_lookup : lookupFs bfs2 (p ++ ".backup") = some (.file c1) := by
      rw [← hbfs2, hwfs, lookupFs_setFs, if_pos rfl]
    have hbk2 : lookupFs fsb (p ++ ".backup") = some (.file c1) :=
      mkdirAll_preserves_file hm2 hbk_lookup
    refine ⟨?_, ?_, ?_⟩
    · rw [he2, lookupFs_setFs, if_pos rfl]
    · rw [he2, lookupFs_setFs, if_neg (append_backup_ne p)]
      exact hbk2
    · rw [he2, ← hbp2]

theorem fragments_append (a b : List StreamLine) :
    fragments (a ++ b) = fragments a ++ fragments b := by
  induction a with
  | nil => rfl
  | cons l rest ih =>
    cases l with
    | blank => simpa [fragments] using ih
    | malformed raw => simpa [fragments] using ih
    | frame g =>
      by_cases hr : g.response = "" <;>
        simp [fragments, hr, ih]

theorem generateLoop_run_to_done
    (cb : List String → String → Except String Unit)
    (hcb : ∀ acc s, cb acc s = .ok ()) :
    ∀ (body : List StreamLine) (acc : List String) (g : GenerateResponse),
      body.all benignLine = true → g.done = true →
      generateLoop cb acc (body ++ [.frame g]) =
        ⟨acc ++ fragments (body ++ [.frame g]), .ok ()⟩ := by
  intro body
  induction body with
  | nil =>
    intro acc g hb hg
    simp only [List.nil_append]
    by_cases hr : g.response = ""
    · simp [generateLoop, fragments, hr, hg]
    · simp [generateLoop, fragments, hr, hg, hcb]
  | cons l body ih =>
    intro acc g hb hg
    have hl : benignLine l = true ∧ body.all benignLine = true := by
      simpa using hb
    cases l with
    | blank =>
      simp only [List.cons_append, generateLoop, fragments]
      exact ih acc g hl.2 hg
    | malformed raw => simp [benignLine] at hl
    | frame h =>
      have hdone : h.done = false := by
        have := hl.1
        simp [benignLine] at this
        exact this
      by_cases hr : h.response = ""
      · simp only [List.cons_append, generateLoop, fragments, hr, hdone]
        simp only [ne_eq, not_true_eq_false, if_false, Bool.false_eq_true,
          if_neg, ite_false]
        exact ih acc g hl.2 hg
      · simp only [List.cons_append, generateLoop, fragments, hr]
        simp only [ne_eq, hr, not_false_eq_true, if_true, hcb, hdone,
          Bool.false_eq_true, if_false, ite_true, ite_false]
        simp only [List.append_eq]
        rw [ih (acc ++ [h.response]) g hl.2 hg]
        simp

theorem generateLoop_error_stops
    (cb : List String → String → Except String Unit) (e : String)
    (g : GenerateResponse) :
    ∀ (body : List StreamLine) (acc : List String) (rest : List StreamLine),
      body.all benignLine = true →
      (∀ mid s, mid <+: fragments body → mid ≠ fragments body →
        cb (acc ++ mid) s = .ok ()) →
      g.response ≠ "" →
      cb (acc ++ fragments body) g.response = .error e →
      generateLoop cb acc (body ++ .frame g :: rest) =
        ⟨acc ++ fragments body ++ [g.response], .error e⟩ := by
  intro body
  induction body with
  | nil =>
    intro acc rest hb hok hne herr
    have herr2 : cb acc g.response = .error e := by
      simpa [fragments] using herr
    simp [generateLoop, hne, herr2, fragments]
  | cons l body ih =>
    intro acc rest hb hok hne herr
    have hl : benignLine l = true ∧ body.all benignLine = true := by
      simpa using hb
    cases l with
    | blank =>
      simp only [List.cons_append, generateLoop, fragments]
      exact ih acc rest hl.2 hok hne herr
    | malformed raw => simp [benignLine] at hl
    | frame h =>
      have hdone : h.done = false := by
        have := hl.1
        simp [benignLine] at this
        exact this
      by_cases hr : h.response = ""
      · simp only [List.cons_append, generateLoop, hr]
        simp only [ne_eq, not_true_eq_false, if_false, hdone,
          Bool.false_eq_true, ite_false]
        have hfrag : fragments (StreamLine.frame h :: body) = fragments body := by
          simp [fragments, hr]
        rw [hfrag] at hok herr ⊢
        exact ih acc rest hl.2 hok hne herr
      · have hfrag : fragments (StreamLine.frame h :: body) =
            h.response :: fragments body := by
          simp [fragments, hr]
        have hfirst : cb acc h.response = .ok () := by
          have := hok [] h.response (by simp) (by rw [hfrag]; simp)
          simpa using this
        simp only [List.cons_append, generateLoop]
        simp only [ne_eq, hr, not_false_eq_true, if_true, hfirst, hdone,
          Bool.false_eq_true, ite_false, if_false]
        have hok2 : ∀ mid s, mid <+: fragments body → mid ≠ fragments body →
            cb ((acc ++ [h.response]) ++ mid) s = .ok () := by
          intro mid s hp hne2
          have h1 : (h.response :: mid) <+: fragments (StreamLine.frame h :: body) := by
            rw [hfrag]
            exact List.cons_prefix_cons.mpr ⟨rfl, hp⟩
          have h2 : (h.response :: mid) ≠ fragments (StreamLine.frame h :: body) := by
            rw [hfrag]
            intro hc
            exact hne2 (List.cons.injEq _ _ _ _ ▸ hc).2
          have := hok (h.response :: mid) s h1 h2
          simpa [List.append_assoc] using this
        have herr2 : cb ((acc ++ [h.response]) ++ fragments body) g.response
            = .error e := by
          rw [hfrag] at herr
          simpa [List.append_assoc] using herr
        simp only [List.append_eq]
        rw [ih (acc ++ [h.response]) rest hl.2 hok2 hne herr2, hfrag]
        simp

theorem strAppend_assoc (a b c : String) : (a ++ b) ++ c = a ++ (b ++ c) := by
  apply strExt
  rw [strDataAppend, strDataAppend, strDataAppend, strDataAppend,
    List.append_assoc]

theorem strAppend_empty (s : String) : s ++ "" = s := by
  apply strExt
  rw [strDataAppend]
  exact List.append_nil s.data

theorem sepByBlank_cons (s : String) (L : List String) (hL : L ≠ []) :
    sepByBlank (s :: L) = s ++ "\n\n" ++ sepByBlank L := by
  cases L with
  | nil => exact absurd rfl hL
  | cons t ts => rfl

theorem renderTurnGo_not_last (enhanced : String) (total i : Nat) (m : Message)
    (hrole : m.role = "user" ∨ m.role = "assistant") (hi : i ≠ total - 1) :
    renderTurnGo enhanced total i m = specRenderTurn false enhanced m ++ "\n\n" := by
  unfold renderTurnGo specRenderTurn
  rcases hrole with h | h
  · rw [if_pos h, if_pos h, if_neg hi, if_neg (by simp)]
  · by_cases hu : m.role = "user"
    · rw [if_pos hu, if_pos hu, if_neg hi, if_neg (by simp)]
    · rw [if_neg hu, if_neg hu, if_pos h]

theorem renderTurnGo_last (enhanced : String) (total i : Nat) (m : Message)
    (hrole : m.role = "user" ∨ m.role = "assistant") (hi : i = total - 1) :
    renderTurnGo enhanced total i m = specRenderTurn true enhanced m ++ "\n\n" := by
  unfold renderTurnGo specRenderTurn
  by_cases hu : m.role = "user"
  · rw [if_pos hu, if_pos hu, if_pos hi, if_pos rfl]
  · rcases hrole with h | h
    · exact absurd h hu
    · rw [if_neg hu, if_neg hu, if_pos h]

theorem buildAux_append (enhanced : String) (total : Nat) :
    ∀ (init : List Message) (i : Nat) (lastM : Message),
      i + init.length + 1 = total →
      (∀ m ∈ init ++ [lastM], m.role = "user" ∨ m.role = "assistant") →
      buildConversationContextAux enhanced total i (init ++ [lastM]) =
        sepByBlank (init.map (specRenderTurn false enhanced) ++
          [specRenderTurn true enhanced lastM]) ++ "\n\n" := by
  intro init
  induction init with
  | nil =>
    intro i lastM htotal hroles
    simp only [List.length_nil] at htotal
    have hi : i = total - 1 := by omega
    simp only [List.nil_append, buildConversationContextAux, List.map_nil]
    rw [renderTurnGo_last enhanced total i lastM
      (hroles lastM (by simp)) hi]
    rw [strAppend_empty]
    rfl
  | cons m init ih =>
    intro i lastM htotal hroles
    have hi : i ≠ total - 1 := by
      simp only [List.length_cons] at htotal
      omega
    have hlen : (i + 1) + init.length + 1 = total := by
      simp only [List.length_cons] at htotal
      omega
    have hroles2 : ∀ u ∈ init ++ [lastM], u.role = "user" ∨ u.role = "assistant" :=
      fun u hu => hroles u (List.mem_cons_of_mem m hu)
    simp only [List.cons_append, buildConversationContextAux, List.map_cons]
    rw [renderTurnGo_not_last enhanced total i m
      (hroles m (List.mem_cons_self m _)) hi]
    simp only [List.append_eq]
    rw [ih (i + 1) lastM hlen hroles2]
    rw [sepByBlank_cons _ _ (by simp)]
    rw [strAppend_assoc, strAppend_assoc, strAppend_assoc]

/-- Claim C9: `BuildConversationContext` renders each prior user turn as
`User: ` + text and each prior assistant turn as `Assistant: ` + text,
separated by blank lines in chronological order (with a trailing blank
line), except that the most recent turn, when it is a user turn, is
rendered with the caller-supplied enhancement instead of its stored
text.  The embedding is a pure function of the history and the
enhancement, mirroring the Go code, which only reads the history. -/
theorem buildConversationContext_spec (init : List Message) (lastM : Message)
    (enhanced : String)
    (hroles : ∀ m ∈ init ++ [lastM], m.role = "user" ∨ m.role = "assistant") :
    buildConversationContext (init ++ [lastM]) enhanced =
      sepByBlank (init.map (specRenderTurn false enhanced) ++
        [specRenderTurn true enhanced lastM]) ++ "\n\n" := by
  unfold buildConversationContext
  exact buildAux_append enhanced (init ++ [lastM]).length init 0 lastM
    (by simp) hroles

/-! ## Claim theorems, counterexamples and witnesses -/

/-- Claim C1 (the code bug): agent-mode file creation writes the raw
model-supplied filename `../evil.txt` straight to the filesystem — the
file appears at that path outside any project root — although the path
guard rejects that very filename; neither `AgentMode.ProcessInput` nor
`extractAndCreateFiles` ever calls `ResolveWithinRoot`. -/
theorem agent_mode_write_bypasses_path_guard :
    lookupFs (agentCreateFiles [] [⟨"../evil.txt", "pwned"⟩]) "../evil.txt"
      = some (.file "pwned") ∧
    resolveWithinRoot "/home/user" "/home/user/proj" "../evil.txt"
      = .error "path escapes project root: ../evil.txt" :=
  ⟨rfl, rfl⟩

/-- Claim C2 counterexample: the user path `.` is non-empty, not
absolute, and contains no `..` segment, yet `ResolveWithinRoot` rejects
it, so the claim as stated fails. -/
theorem resolve_dot_counterexample :
    ("." : String) ≠ "" ∧ goIsAbs "." = false ∧
    ['.', '.'] ∉ splitSegs (".".data) ∧
    resolveWithinRoot "/cwd" "/proj" "." = .error "invalid path: ." :=
  ⟨by decide, by decide, by decide, by rfl⟩

theorem resolve_ok_of_safe_relative_witness :
    resolveWithinRoot "/home" "proj" "a/b.txt" =
      .ok (goJoin2 (goAbs "/home" "proj") (goClean "a/b.txt"), goClean "a/b.txt") ∧
    strStartsWith (goJoin2 (goAbs "/home" "proj") (goClean "a/b.txt"))
      (goAbs "/home" "proj") = true :=
  resolve_ok_of_safe_relative "/home" "proj" "a/b.txt" (by decide) (by decide)
    (by decide) (by decide) (by decide) (by decide)

theorem resolve_rejects_escapes_witness :
    ∃ e, resolveWithinRoot "/cwd" "/proj" ".." = .error e :=
  resolve_rejects_escapes "/cwd" "/proj" ".." (Or.inl rfl)

/-- Claim C4: for a 200 streaming response whose lines are frames that
are not yet `done` (or blank lines) followed by a frame with
`done = true`, the callback is invoked exactly once per non-empty
fragment, in arrival order, and the call then returns `nil`; frames with
empty fragments cause no invocation. -/
theorem generate_streaming_order
    (cb : List String → String → Except String Unit) (r : HttpResponse)
    (body : List StreamLine) (g : GenerateResponse)
    (hcb : ∀ acc s, cb acc s = .ok ())
    (hst : r.status = 200)
    (hlines : r.lines = body ++ [.frame g])
    (hbody : body.all benignLine = true)
    (hdone : g.done = true) :
    (generate cb r).calls = fragments r.lines ∧
    (generate cb r).outcome = .ok () := by
  unfold generate
  rw [if_neg (by simp [hst]), hlines,
    generateLoop_run_to_done cb hcb body [] g hbody hdone]
  simp

theorem generate_streaming_order_witness :
    (generate (fun _ _ => .ok ())
        ⟨200, "200 OK", "",
          [.frame { response := "a" }, .frame { response := "" }, .blank,
           .frame { response := "b" }, .frame { response := "c" },
           .frame { response := "", done := true }]⟩).calls = ["a", "b", "c"] ∧
    (generate (fun _ _ => .ok ())
        ⟨200, "200 OK", "",
          [.frame { response := "a" }, .frame { response := "" }, .blank,
           .frame { response := "b" }, .frame { response := "c" },
           .frame { response := "", done := true }]⟩).outcome = .ok () := by
  have h := generate_streaming_order (fun _ _ => .ok ())
    ⟨200, "200 OK", "",
      [.frame { response := "a" }, .frame { response := "" }, .blank,
       .frame { response := "b" }, .frame { response := "c" },
       .frame { response := "", done := true }]⟩
    [.frame { response := "a" }, .frame { response := "" }, .blank,
     .frame { response := "b" }, .frame { response := "c" }]
    { response := "", done := true }
    (fun _ _ => rfl) rfl rfl (by rfl) rfl
  exact ⟨by rw [h.1]; rfl, h.2⟩

/-- Claim C5: if the callback returns an error on some frame, the
streaming call returns exactly that error and the callback is never
invoked for any later frame, whatever lines follow. -/
theorem generate_callback_error_short_circuits
    (cb : List String → String → Except String Unit) (r : HttpResponse)
    (body rest : List StreamLine) (g : GenerateResponse) (e : String)
    (hst : r.status = 200)
    (hlines : r.lines = body ++ .frame g :: rest)
    (hbody : body.all benignLine = true)
    (hok : ∀ mid s, mid <+: fragments body → mid ≠ fragments body →
      cb mid s = .ok ())
    (hne : g.response ≠ "")
    (herr : cb (fragments body) g.response = .error e) :
    (generate cb r).calls = fragments body ++ [g.response] ∧
    (generate cb r).outcome = .error e := by
  unfold generate
  rw [if_neg (by simp [hst]), hlines]
  have hok2 : ∀ mid s, mid <+: fragments body → mid ≠ fragments body →
      cb ([] ++ mid) s = .ok () := by
    intro mid s h1 h2
    rw [List.nil_append]
    exact hok mid s h1 h2
  have herr2 : cb ([] ++ fragments body) g.response = .error e := by
    rw [List.nil_append]
    exact herr
  rw [generateLoop_error_stops cb e g body [] rest hbody hok2 hne herr2]
  simp

theorem generate_callback_error_short_circuits_witness :
    (generate (fun prior _ => if prior.length = 1 then .error "boom" else .ok ())
        ⟨200, "200 OK", "",
          [.frame { response := "a" }, .frame { response := "b" },
           .frame { response := "c" },
           .frame { response := "", done := true }]⟩).calls = ["a", "b"] ∧
    (generate (fun prior _ => if prior.length = 1 then .error "boom" else .ok ())
        ⟨200, "200 OK", "",
          [.frame { response := "a" }, .frame { response := "b" },
           .frame { response := "c" },
           .frame { response := "", done := true }]⟩).outcome = .error "boom" := by
  have h := generate_callback_error_short_circuits
    (fun prior _ => if prior.length = 1 then .error "boom" else .ok ())
    ⟨200, "200 OK", "",
      [.frame { response := "a" }, .frame { response := "b" },
       .frame { response := "c" }, .frame { response := "", done := true }]⟩
    [.frame { response := "a" }]
    [.frame { response := "c" }, .frame { response := "", done := true }]
    { response := "b" } "boom"
    rfl rfl (by rfl)
    (by
      intro mid s h1 h2
      cases mid with
      | nil => rfl
      | cons x xs =>
        obtain ⟨t, ht⟩ := h1
        simp only [List.cons_append] at ht
        have hx : x = "a" := (List.cons.injEq _ _ _ _ ▸ ht).1
        have hxt : xs ++ t = [] := (List.cons.injEq _ _ _ _ ▸ ht).2
        rcases List.append_eq_nil.mp hxt with ⟨h5, _⟩
        subst hx h5
        exact absurd rfl h2)
    (by decide) rfl
  exact ⟨by rw [h.1]; rfl, h.2⟩

/-- Claim C6 counterexample: `GenerateJSON` receives a non-2xx response
(status 500) whose body decodes, and returns success instead of the
error with the body that the claim requires: the status is never
inspected on this operation. -/
theorem generateJSON_ignores_status_counterexample :
    (JsonHttpResponse.mk 500 "500 Internal Server Error"
        (.decoded "raw-body" { response := "oops", done := true })).status = 500 ∧
    generateJSON (JsonHttpResponse.mk 500 "500 Internal Server Error"
        (.decoded "raw-body" { response := "oops", done := true })) = .ok "oops" :=
  ⟨rfl, rfl⟩

/-- Claim C6 (amended): streaming generation reports any non-200 status
as an error whose message quotes the status text and the response body;
model listing reports any non-200 status as an error naming only the
status text, without the body; structured non-streaming generation never
inspects the status — even on a non-200 response it succeeds whenever
the body decodes, returning the decoded response field, and fails only
when the body does not decode. -/
theorem transport_status_error_reporting
    (cb : List String → String → Except String Unit)
    (sr : HttpResponse) (tr : TagsHttpResponse) (jr : JsonHttpResponse) :
    (sr.status ≠ 200 → (generate cb sr).outcome =
      .error ("ollama API error: " ++ sr.statusText ++ " - " ++ sr.rawBody)) ∧
    (tr.status ≠ 200 → listModels tr =
      .error ("ollama returned status " ++ tr.statusText)) ∧
    (∀ raw g, jr.body = .decoded raw g → generateJSON jr = .ok g.response) ∧
    (∀ raw, jr.body = .malformed raw →
      generateJSON jr = .error "failed to decode response") := by
  refine ⟨?_, ?_, ?_, ?_⟩
  · intro h
    unfold generate
    rw [if_pos h]
  · intro h
    unfold listModels
    rw [if_pos h]
  · intro raw g h
    unfold generateJSON
    rw [h]
  · intro raw h
    unfold generateJSON
    rw [h]

theorem transport_status_error_reporting_witness :
    (generate (fun _ _ => .ok ())
        ⟨500, "500 Internal Server Error", "boom-body", []⟩).outcome =
      .error ("ollama API error: " ++ "500 Internal Server Error" ++ " - " ++
        "boom-body") ∧
    listModels ⟨404, "404 Not Found", .malformed "x"⟩ =
      .error ("ollama returned status " ++ "404 Not Found") ∧
    generateJSON ⟨500, "500 Internal Server Error",
        .decoded "raw" { response := "oops" }⟩ = .ok "oops" := by
  have h := transport_status_error_reporting (fun _ _ => .ok ())
    ⟨500, "500 Internal Server Error", "boom-body", []⟩
    ⟨404, "404 Not Found", .malformed "x"⟩
    ⟨500, "500 Internal Server Error", .decoded "raw" { response := "oops" }⟩
  exact ⟨h.1 (by decide), h.2.1 (by decide), h.2.2.1 "raw" _ rfl⟩

/-- Claim C7: the structured parser first attempts the array shape and
returns its records in order; if that fails it attempts the single
bare-object shape, wrapping a success into a one-element list; if both
fail it returns an error carrying the raw payload, and no records. -/
theorem structured_parser_two_stage (p : Payload) :
    (∀ files, unmarshalFiles p = .ok files → parseGeneratedFiles p = .ok files) ∧
    (∀ e f, unmarshalFiles p = .error e → unmarshalSingle p = .ok f →
      parseGeneratedFiles p = .ok [f]) ∧
    (∀ e e2, unmarshalFiles p = .error e → unmarshalSingle p = .error e2 →
      parseGeneratedFiles p =
        .error ("error parsing JSON response: " ++ e ++ "\nResponse was: " ++
          p.raw)) := by
  refine ⟨?_, ?_, ?_⟩
  · intro files h
    unfold parseGeneratedFiles
    rw [h]
  · intro e f h1 h2
    unfold parseGeneratedFiles
    rw [h1, h2]
  · intro e e2 h1 h2
    unfold parseGeneratedFiles
    rw [h1, h2]

theorem structured_parser_two_stage_witness :
    parseGeneratedFiles (.value "raw-array"
        (.arr [.obj [("filename", .str "a.txt"), ("content", .str "hi")],
               .obj [("filename", .str "b.txt"), ("content", .str "yo")]])) =
      .ok [⟨"a.txt", "hi"⟩, ⟨"b.txt", "yo"⟩] ∧
    parseGeneratedFiles (.value "raw-object"
        (.obj [("filename", .str "a.txt"), ("content", .str "hi")])) =
      .ok [⟨"a.txt", "hi"⟩] ∧
    parseGeneratedFiles (.invalid "not json") =
      .error ("error parsing JSON response: " ++ "invalid character" ++
        "\nResponse was: " ++ "not json") := by
  refine ⟨?_, ?_, ?_⟩
  · exact (structured_parser_two_stage _).1 _ rfl
  · exact (structured_parser_two_stage _).2.1 "cannot unmarshal into slice" _ rfl rfl
  · exact (structured_parser_two_stage _).2.2 "invalid character" "invalid character"
      rfl rfl

theorem write_backup_roundtrip_witness :
    lookupFs (writeFileWithBackup
        (writeFileWithBackup [] "a.txt" "one").fs "a.txt" "two").fs "a.txt"
      = some (.file "two") ∧
    lookupFs (writeFileWithBackup
        (writeFileWithBackup [] "a.txt" "one").fs "a.txt" "two").fs
        ("a.txt" ++ ".backup") = some (.file "one") ∧
    (writeFileWithBackup
        (writeFileWithBackup [] "a.txt" "one").fs "a.txt" "two").backupPath
      = "a.txt" ++ ".backup" :=
  write_backup_roundtrip [] "a.txt" "one" "two" rfl rfl

theorem buildConversationContext_spec_witness :
    buildConversationContext
        ([⟨"user", "hi"⟩, ⟨"assistant", "hello"⟩] ++ [⟨"user", "hi2"⟩])
        "hi2 [file: x]" =
      sepByBlank ([⟨"user", "hi"⟩, ⟨"assistant", "hello"⟩].map
          (specRenderTurn false "hi2 [file: x]") ++
        [specRenderTurn true "hi2 [file: x]" ⟨"user", "hi2"⟩]) ++ "\n\n" :=
  buildConversationContext_spec [⟨"user", "hi"⟩, ⟨"assistant", "hello"⟩]
    ⟨"user", "hi2"⟩ "hi2 [file: x]" (by decide)

/-- Claim C10: when the final frame carries both a non-empty fragment
and `done = true`, the streaming call still delivers that fragment to
the callback, as the last invocation, before returning `nil`: the
fragment of the `done` frame is never dropped. -/
theorem generate_done_fragment_delivered
    (cb : List String → String → Except String Unit) (r : HttpResponse)
    (body : List StreamLine) (g : GenerateResponse)
    (hcb : ∀ acc s, cb acc s = .ok ())
    (hst : r.status = 200)
    (hlines : r.lines = body ++ [.frame g])
    (hbody : body.all benignLine = true)
    (hdone : g.done = true)
    (hne : g.response ≠ "") :
    (generate cb r).calls = fragments body ++ [g.response] ∧
    (generate cb r).outcome = .ok () := by
  unfold generate
  rw [if_neg (by simp [hst]), hlines,
    generateLoop_run_to_done cb hcb body [] g hbody hdone]
  constructor
  · show [] ++ fragments (body ++ [.frame g]) = _
    rw [List.nil_append, fragments_append]
    simp [fragments, hne]
  · rfl

theorem generate_done_fragment_delivered_witness :
    (generate (fun _ _ => .ok ())
        ⟨200, "200 OK", "",
          [.frame { response := "a" },
           .frame { response := "z", done := true }]⟩).calls = ["a", "z"] ∧
    (generate (fun _ _ => .ok ())
        ⟨200, "200 OK", "",
          [.frame { response := "a" },
           .frame { response := "z", done := true }]⟩).outcome = .ok () := by
  have h := generate_done_fragment_delivered (fun _ _ => .ok ())
    ⟨200, "200 OK", "",
      [.frame { response := "a" }, .frame { response := "z", done := true }]⟩
    [.frame { response := "a" }] { response := "z", done := true }
    (fun _ _ => rfl) rfl rfl (by rfl) rfl (by decide)
  exact ⟨by rw [h.1]; rfl, h.2⟩

end LlamaSidekick

